import Mathlib

/-!
Shallow embedding of the checksum-based incremental backup tool
(`src/operations.rs` and `src/main.rs`) and proofs about it.

Modelling conventions:
* Rust `String` values are modelled as `List Char`; raw OS path bytes as
  `List Nat`.
* `HashMap<String, String>` is modelled as an association list together with
  an insert operation that replaces an existing binding (last write wins);
  since the iteration order of a `HashMap` is unspecified, every theorem that
  consumes a map quantifies over an arbitrary association list.
* Fallible I/O is modelled with explicit oracles: file contents are passed as
  values, and create/open/write failures are injected through boolean oracles.
* A Rust `panic!` (from `unwrap()`) is a distinguished outcome, kept separate
  from errors returned through `Result`.
-/

namespace Backup

/-- Strings (`String` in the source) are modelled as lists of characters. -/
abbrev Str := List Char

/-- Raw OS path bytes (`PathBuf` contents in the source). -/
abbrev Bytes := List Nat

/-- The error type of the program: `enum MainError` in `main.rs`.  The
`String` payload of `OtherError` carries only a diagnostic message and is not
tracked by the model. -/
inductive MainError where
  | docoptError
  | otherError
deriving DecidableEq

/-- Unicode `White_Space` code points, the set used by Rust
`char::is_whitespace` (and hence by `str::split_whitespace`). -/
def isWsN (n : Nat) : Bool :=
  n == 9 || n == 10 || n == 11 || n == 12 || n == 13 || n == 32 || n == 133 ||
  n == 160 || n == 5760 || (8192 ≤ n && n ≤ 8202) || n == 8232 || n == 8233 ||
  n == 8239 || n == 8287 || n == 12288

/-- Whether a character is whitespace in the sense of `char::is_whitespace`. -/
def isWs (c : Char) : Bool := isWsN c.toNat

/-- Accumulator-passing worker for `splitWhitespace`. -/
def splitWsAux : List Char → List Char → List Str
  | [], acc => if acc.isEmpty then [] else [acc.reverse]
  | c :: rest, acc =>
    if isWs c then
      if acc.isEmpty then splitWsAux rest [] else acc.reverse :: splitWsAux rest []
    else splitWsAux rest (c :: acc)

/-- Rust `str::split_whitespace`: split on runs of whitespace, yielding no
empty tokens. -/
def splitWhitespace (s : Str) : List Str := splitWsAux s []

/-- Remove one carriage return at the end of a line, as `BufRead::lines` does
for a line terminated by a newline. -/
def stripCR (l : Str) : Str := if l.getLast? = some '\r' then l.dropLast else l

/-- Accumulator-passing worker for `linesOf`. -/
def linesAux : List Char → List Char → List Str
  | [], acc => if acc.isEmpty then [] else [acc.reverse]
  | c :: rest, acc =>
    if c = '\n' then stripCR acc.reverse :: linesAux rest [] else linesAux rest (c :: acc)

/-- Rust `BufRead::lines` on textual content: split at each newline, strip a
carriage return that immediately precedes a newline, yield a final
unterminated line as-is, and yield nothing extra for a trailing newline. -/
def linesOf (s : Str) : List Str := linesAux s []

/-- `HashMap<String, String>` modelled as an association list. -/
abbrev HMap := List (Str × Str)

/-- `HashMap::get`: the value bound to a key, if any. -/
def hmLookup : HMap → Str → Option Str
  | [], _ => none
  | (k, v) :: rest, q => if k = q then some v else hmLookup rest q

/-- `HashMap::insert`: replace the binding if the key is present, otherwise
add a new one. -/
def hmInsert (m : HMap) (k v : Str) : HMap :=
  if hmLookup m k = none then m ++ [(k, v)]
  else m.map (fun p => if p.1 = k then (k, v) else p)

/-- The keys of a map. -/
def hmKeys (m : HMap) : List Str := m.map Prod.fst

/-! ### `load_checksums` (`operations.rs` lines 26-54)

The opened file is modelled as a sequence of line-read results: `Except.ok`
for a line that was read, `Except.error` for a line whose read failed (the
`Err(_) => continue` arm of the loop).  An unopenable file is `none`. -/

/-- One iteration of the `load_checksums` line loop: split the line on
whitespace, take the first token as the checksum and the second as the
filename, skip the line if either token is missing, and otherwise insert
filename into the map bound to checksum. -/
def processLine (acc : HMap) (l : Str) : HMap :=
  match splitWhitespace l with
  | checksum :: rest =>
    match rest with
    | filename :: _ => hmInsert acc filename checksum
    | [] => acc
  | [] => acc

/-- One iteration of the `load_checksums` line loop over a line-read result:
a failed read (`Err(_) => continue`) leaves the map unchanged. -/
def loadStep (acc : HMap) (r : Except Unit Str) : HMap :=
  match r with
  | .ok l => processLine acc l
  | .error _ => acc

/-- The loop body of `load_checksums` once the file is open: fold over the
line-read results, skipping failed reads. -/
def load_checksums_lines (ls : List (Except Unit Str)) : HMap :=
  ls.foldl loadStep []

/-- `load_checksums`: if the file opens (`some` line results), build the map;
otherwise return `MainError::OtherError`. -/
def load_checksums (file : Option (List (Except Unit Str))) : Except MainError HMap :=
  match file with
  | some ls => .ok (load_checksums_lines ls)
  | none => .error .otherError

/-- The filename/checksum pair a line contributes, if any: the second
whitespace-separated token mapped to the first. -/
def lineEntry (l : Str) : Option (Str × Str) :=
  match splitWhitespace l with
  | checksum :: filename :: _ => some (filename, checksum)
  | _ => none

/-! ### `save_checksums` (`operations.rs` lines 120-137)

`File::create` truncates any existing file, so on successful creation the
written content starts empty regardless of the previous content.  Each entry
is emitted by one `write_all` call; the success of the i-th call is decided
by a boolean oracle, and a failure aborts the function with an error through
`try!`. -/

/-- One formatted manifest line: `format!` of value, tab, key, newline. -/
def fmtEntry (kv : Str × Str) : Str := kv.2 ++ '\t' :: (kv.1 ++ ['\n'])

/-- The file content `save_checksums` produces when every write succeeds. -/
def saveContent (m : HMap) : Str := (m.map fmtEntry).flatten

/-- Oracle for the fallible steps of `save_checksums`: whether `File::create`
succeeds, and whether the i-th `write_all` call succeeds. -/
structure WOracle where
  createOk : Bool
  writeOk : Nat → Bool

/-- The entry-writing loop of `save_checksums`: `i` counts `write_all` calls,
`content` is the file content written so far. -/
def saveGo (w : Nat → Bool) : List (Str × Str) → Nat → Str → Except MainError Str
  | [], _, content => .ok content
  | kv :: rest, i, content =>
    if w i then saveGo w rest (i + 1) (content ++ fmtEntry kv)
    else .error .otherError

/-- `save_checksums`: create (truncating) the output file, then write one
line per entry; a create or write failure returns `MainError::OtherError`.
The previous content `old` of the file is discarded by `File::create`. -/
def save_checksums (m : HMap) (o : WOracle) (old : Str) : Except MainError Str :=
  if o.createOk then saveGo o.writeOk m 0 [] else .error .otherError

/-! ### `write_archive` (`operations.rs` lines 149-176)

`File::create` failure on the destination returns `MainError::OtherError`.
For each fresh entry whose digest is absent from or different in the baseline
map, the source file is opened with `File::open(..).unwrap()` and appended
with `append_file(..).unwrap()`; both `unwrap`s turn failure into a panic,
which the model records as a distinguished outcome.  The `srcOk` oracle says
whether opening-and-appending the file at a given path succeeds. -/

/-- Outcome of `write_archive`: the list of entry names appended to the
archive in order, a returned error, or a panic. -/
inductive AResult where
  | ok (entries : List Str)
  | ioError
  | panicked
deriving DecidableEq

/-- The per-entry change test of `write_archive`:
`old_checksums.get(fname).map_or(true, h not equal to hash)`. -/
def changedB (oldC : HMap) (fname hash : Str) : Bool :=
  match hmLookup oldC fname with
  | none => true
  | some h => decide (h ≠ hash)

/-- `PathBuf::push` with a relative component, modelled as appending a path
separator and the component. -/
def pathPushStr (root : Str) (s : Str) : Str := root ++ '/' :: s

/-- The entry loop of `write_archive`, accumulating appended entry names. -/
def archiveGo (oldC : HMap) (root : Str) (srcOk : Str → Bool) :
    List (Str × Str) → List Str → AResult
  | [], acc => .ok acc
  | kv :: rest, acc =>
    if changedB oldC kv.1 kv.2 then
      if srcOk (pathPushStr root kv.1) then archiveGo oldC root srcOk rest (acc ++ [kv.1])
      else .panicked
    else archiveGo oldC root srcOk rest acc

/-- `write_archive`: create the destination (else return an error), then for
every changed or added entry append the source file under the entry name. -/
def write_archive (newC oldC : HMap) (root : Str) (srcOk : Str → Bool)
    (createOk : Bool) : AResult :=
  if createOk then archiveGo oldC root srcOk newC [] else .ioError

/-- Sanity check: the selected entries are the added and changed keys. -/
example :
    write_archive [([' '], ['1'])] [] [] (fun _ => true) true = .ok [[' ']] := by decide

/-! ### Paths and UTF-8

`checksum_directory` manipulates `Path` values, whose underlying
representation is a byte string that need not be valid UTF-8; `to_str()`
yields `None` exactly on invalid UTF-8.  `Path::strip_prefix` is modelled at
the level of normalized components (chunks between `/` bytes, dropping empty
chunks and `.` chunks), with the remainder rejoined by single forward
slashes. -/

/-- Whether a byte is a UTF-8 continuation byte. -/
def isCont (b : Nat) : Bool := 128 ≤ b && b ≤ 191

/-- Standard UTF-8 decoding of a byte string, rejecting overlong forms,
surrogates and out-of-range code points; `none` models a `to_str()` failure. -/
def decodeUtf8 : Bytes → Option Str
  | [] => some []
  | b :: rest =>
    if b ≤ 127 then (decodeUtf8 rest).map (fun s => Char.ofNat b :: s)
    else if b ≤ 193 then none
    else if b ≤ 223 then
      match rest with
      | b2 :: rest2 =>
        if isCont b2 then
          (decodeUtf8 rest2).map (fun s => Char.ofNat ((b - 192) * 64 + (b2 - 128)) :: s)
        else none
      | [] => none
    else if b ≤ 239 then
      match rest with
      | b2 :: b3 :: rest3 =>
        if (if b = 224 then 160 ≤ b2 && b2 ≤ 191
            else if b = 237 then 128 ≤ b2 && b2 ≤ 159
            else isCont b2) && isCont b3 then
          (decodeUtf8 rest3).map
            (fun s => Char.ofNat (((b - 224) * 64 + (b2 - 128)) * 64 + (b3 - 128)) :: s)
        else none
      | _ => none
    else if b ≤ 244 then
      match rest with
      | b2 :: b3 :: b4 :: rest4 =>
        if (if b = 240 then 144 ≤ b2 && b2 ≤ 191
            else if b = 244 then 128 ≤ b2 && b2 ≤ 143
            else isCont b2) && isCont b3 && isCont b4 then
          (decodeUtf8 rest4).map
            (fun s => Char.ofNat
              ((((b - 240) * 64 + (b2 - 128)) * 64 + (b3 - 128)) * 64 + (b4 - 128)) :: s)
        else none
      | _ => none
    else none

/-- Standard UTF-8 encoding of one code point. -/
def encodeChar (n : Nat) : Bytes :=
  if n ≤ 127 then [n]
  else if n ≤ 2047 then [192 + n / 64, 128 + n % 64]
  else if n ≤ 65535 then [224 + n / 4096, 128 + (n / 64) % 64, 128 + n % 64]
  else [240 + n / 262144, 128 + (n / 4096) % 64, 128 + (n / 64) % 64, 128 + n % 64]

/-- Standard UTF-8 encoding of a string. -/
def encodeUtf8 (s : Str) : Bytes := (s.map (fun c => encodeChar c.toNat)).flatten

/-- Whether a path is absolute (starts with a separator byte). -/
def isAbsB (p : Bytes) : Bool := p.head? = some 47

/-- Accumulator-passing worker for `splitSlash`. -/
def splitSlashAux : Bytes → Bytes → List Bytes
  | [], acc => [acc.reverse]
  | b :: rest, acc =>
    if b = 47 then acc.reverse :: splitSlashAux rest [] else splitSlashAux rest (b :: acc)

/-- Split a byte path at every separator byte, keeping empty chunks. -/
def splitSlash (p : Bytes) : List Bytes := splitSlashAux p []

/-- Normalized path components: chunks between separators, dropping empty
chunks (repeated or edge separators) and `.` chunks, following the
normalization performed by `Path::components`. -/
def pathComps (p : Bytes) : List Bytes :=
  (splitSlash p).filter (fun c => !c.isEmpty && c ≠ [46])

/-- Rejoin path components with single forward slashes. -/
def joinSlash : List Bytes → Bytes
  | [] => []
  | [c] => c
  | c :: rest => c ++ 47 :: joinSlash rest

/-- `Path::strip_prefix`, modelled on normalized components: it succeeds when
both paths agree on absoluteness and the components of `root` lead those of
`p`, and then returns the remaining components rejoined with slashes. -/
def stripRoot (root p : Bytes) : Option Bytes :=
  if (isAbsB root == isAbsB p) && (pathComps root).isPrefixOf (pathComps p) then
    some (joinSlash ((pathComps p).drop (pathComps root).length))
  else none

/-! ### `checksum_directory` (`operations.rs` lines 68-110)

The directory walk is modelled as an oracle from a path to the list of nodes
`WalkDir` yields under it (walk errors are already dropped by the source's
`filter_map(|e| e.ok())`).  Each node carries its path bytes, whether it is a
regular file, and what happens on open/read.  The SHA-1 function is abstract:
the hash state is reset after every hashed file, so each file's digest is the
hash of its full content.  The two `unwrap()`s in the loop — on `file.read`
and on `to_str()` — are modelled as distinguished panic outcomes. -/

/-- What happens when a node is opened and read. -/
inductive NodeAccess where
  | openFail
  | readFail
  | ok (content : Bytes)
deriving DecidableEq

/-- One node yielded by the directory walk. -/
structure Node where
  path : Bytes
  isFile : Bool
  access : NodeAccess
deriving DecidableEq

/-- Which `unwrap()` panicked during the scan. -/
inductive PanicKind where
  | readPanic
  | utf8Panic
deriving DecidableEq

/-- Outcome of `checksum_directory`: a manifest, or a panic. -/
inductive ScanResult where
  | ok (m : HMap)
  | panicked (k : PanicKind)
deriving DecidableEq

/-- Whether a scan returned a manifest. -/
def ScanResult.isOkB : ScanResult → Bool
  | .ok _ => true
  | .panicked _ => false

/-- Whether a scan returned a manifest containing the key `k`. -/
def ScanResult.hasKey : ScanResult → Str → Bool
  | .ok m, k => (hmLookup m k).isSome
  | .panicked _, _ => false

/-- The manifest key computed for a hashed file
(`operations.rs` lines 92-94): the path stripped of the source root when the
stripping succeeds, the full path otherwise, decoded by `to_str().unwrap()`
(`none` models the panic on invalid UTF-8).  `Result::unwrap_or` evaluates
its argument eagerly: `path.to_str().unwrap()` runs on the full path even
when the stripping succeeded (after the `and_then` closure decoded the
stripped part), so an invalid-UTF-8 full path always panics. -/
def nodeKey (root p : Bytes) : Option Str :=
  match stripRoot root p with
  | some rel =>
    match decodeUtf8 rel with
    | none => none
    | some relStr =>
      match decodeUtf8 p with
      | none => none
      | some _ => some relStr
  | none => decodeUtf8 p

/-- Processing of one walked node: non-files are skipped, open failures are
skipped, a read failure panics, and otherwise the digest of the content is
inserted under the node's key (panicking on invalid UTF-8). -/
def scanNode (root : Bytes) (hashFn : Bytes → Str) (m : HMap) (n : Node) :
    Except PanicKind HMap :=
  if !n.isFile then .ok m
  else match n.access with
    | .openFail => .ok m
    | .readFail => .error .readPanic
    | .ok content =>
      match nodeKey root n.path with
      | none => .error .utf8Panic
      | some key => .ok (hmInsert m key (hashFn content))

/-- The inner walk loop of `checksum_directory` over the nodes of one source. -/
def scanNodes (root : Bytes) (hashFn : Bytes → Str) : List Node → HMap → ScanResult
  | [], m => .ok m
  | n :: rest, m =>
    match scanNode root hashFn m n with
    | .ok m2 => scanNodes root hashFn rest m2
    | .error k => .panicked k

/-- `PathBuf::push` of a source string onto the root path, at byte level. -/
def pathPushB (root : Bytes) (s : Str) : Bytes := root ++ 47 :: encodeUtf8 s

/-- The outer loop of `checksum_directory` over the source entries. -/
def scanSources (root : Bytes) (walk : Bytes → List Node) (hashFn : Bytes → Str) :
    List Str → HMap → ScanResult
  | [], m => .ok m
  | s :: rest, m =>
    match scanNodes root hashFn (walk (pathPushB root s)) m with
    | .ok m2 => scanSources root walk hashFn rest m2
    | .panicked k => .panicked k

/-- `checksum_directory`: walk each source under the root and hash every
regular file, skipping nodes that are not files and nodes that fail to open. -/
def checksum_directory (sources : List Str) (root : Bytes) (walk : Bytes → List Node)
    (hashFn : Bytes → Str) : ScanResult :=
  scanSources root walk hashFn sources []

/-- Sanity check: a two-node walk with one directory and one regular file;
the file is keyed by its root-relative slash-joined path. -/
example :
    checksum_directory [['d']] [] (fun _ =>
      [⟨[100], false, .openFail⟩, ⟨[100, 47, 97], true, .ok [7]⟩])
      (fun _ => ['h']) = .ok [(['d', '/', 'a'], ['h'])] := by
  decide

/-! ### The code inlined in `do_main` (`main.rs` lines 115-249)

`do_main` contains loops that duplicate the bodies of the public functions in
`operations.rs`.  They are re-translated here, independently, from
`main.rs`. -/

/-- One iteration of the checksum-loading loop of `do_main`
(`main.rs` lines 124-141). -/
def mainLoadStep (old : HMap) (r : Except Unit Str) : HMap :=
  match r with
  | .ok l =>
    match splitWhitespace l with
    | checksum :: rest =>
      match rest with
      | filename :: _ => hmInsert old filename checksum
      | [] => old
    | [] => old
  | .error _ => old

/-- The checksum-loading loop of `do_main`, over the line-read results of the
old-checksums file. -/
def mainLoadLoop (ls : List (Except Unit Str)) : HMap := ls.foldl mainLoadStep []

/-- Processing of one walked node in the scan loop of `do_main`
(`main.rs` lines 155-181). -/
def mainScanNode (root : Bytes) (hashFn : Bytes → Str) (m : HMap) (n : Node) :
    Except PanicKind HMap :=
  if !n.isFile then .ok m
  else match n.access with
    | .openFail => .ok m
    | .readFail => .error .readPanic
    | .ok content =>
      match nodeKey root n.path with
      | none => .error .utf8Panic
      | some key => .ok (hmInsert m key (hashFn content))

/-- The inner walk loop of the scan in `do_main`. -/
def mainScanNodes (root : Bytes) (hashFn : Bytes → Str) : List Node → HMap → ScanResult
  | [], m => .ok m
  | n :: rest, m =>
    match mainScanNode root hashFn m n with
    | .ok m2 => mainScanNodes root hashFn rest m2
    | .error k => .panicked k

/-- The outer loop of the scan in `do_main` over `args.arg_source`. -/
def mainScanSources (root : Bytes) (walk : Bytes → List Node) (hashFn : Bytes → Str) :
    List Str → HMap → ScanResult
  | [], m => .ok m
  | s :: rest, m =>
    match mainScanNodes root hashFn (walk (pathPushB root s)) m with
    | .ok m2 => mainScanSources root walk hashFn rest m2
    | .panicked k => .panicked k

/-- The whole scan pass of `do_main` (`main.rs` lines 147-183). -/
def mainScan (sources : List Str) (root : Bytes) (walk : Bytes → List Node)
    (hashFn : Bytes → Str) : ScanResult :=
  mainScanSources root walk hashFn sources []

/-- The entry-writing loop of the checksum-writing block of `do_main`
(`main.rs` lines 191-196). -/
def mainSaveGo (w : Nat → Bool) : List (Str × Str) → Nat → Str → Except MainError Str
  | [], _, content => .ok content
  | kv :: rest, i, content =>
    if w i then mainSaveGo w rest (i + 1) (content ++ fmtEntry kv)
    else .error .otherError

/-- The checksum-writing block of `do_main` in its non-dry-run arm
(`main.rs` lines 187-204). -/
def mainWriteChecksums (m : HMap) (o : WOracle) (old : Str) : Except MainError Str :=
  if o.createOk then mainSaveGo o.writeOk m 0 [] else .error .otherError

/-- The entry loop of the archive-writing block of `do_main`
(`main.rs` lines 223-234). -/
def mainArchiveGo (oldC : HMap) (root : Str) (srcOk : Str → Bool) :
    List (Str × Str) → List Str → AResult
  | [], acc => .ok acc
  | kv :: rest, acc =>
    if changedB oldC kv.1 kv.2 then
      if srcOk (pathPushStr root kv.1) then mainArchiveGo oldC root srcOk rest (acc ++ [kv.1])
      else .panicked
    else mainArchiveGo oldC root srcOk rest acc

/-- The archive-writing block of `do_main` in its non-dry-run arm
(`main.rs` lines 219-239). -/
def mainArchiveBlock (newC oldC : HMap) (root : Str) (srcOk : Str → Bool)
    (createOk : Bool) : AResult :=
  if createOk then mainArchiveGo oldC root srcOk newC [] else .ioError

/-! ### Map lemmas -/

theorem hmLookup_append (m : HMap) (k v q : Str) :
    hmLookup (m ++ [(k, v)]) q = (hmLookup m q).or (if k = q then some v else none) := by
  induction m with
  | nil => simp [hmLookup]
  | cons p rest ih =>
    obtain ⟨a, b⟩ := p
    by_cases h : a = q <;> simp [hmLookup, h, ih]

theorem hmLookup_replace (m : HMap) (k v q : Str) :
    hmLookup (m.map (fun p => if p.1 = k then (k, v) else p)) q =
      if k = q then (hmLookup m k).map (fun _ => v) else hmLookup m q := by
  induction m with
  | nil => simp [hmLookup]
  | cons p rest ih =>
    obtain ⟨a, b⟩ := p
    rw [List.map_cons]
    by_cases hak : a = k
    · subst hak
      rw [if_pos (show (a, b).1 = a from rfl)]
      by_cases hq : a = q
      · subst hq
        simp [hmLookup, ih]
      · simp [hmLookup, hq, ih]
    · rw [if_neg (show ¬(a, b).1 = k from hak)]
      by_cases haq : a = q
      · subst haq
        have hka : ¬k = a := fun h => hak h.symm
        simp [hmLookup, hka, ih]
      · simp [hmLookup, haq, hak, ih]

theorem hmLookup_insert (m : HMap) (k v q : Str) :
    hmLookup (hmInsert m k v) q = if k = q then some v else hmLookup m q := by
  unfold hmInsert
  split
  case isTrue h =>
    rw [hmLookup_append]
    by_cases hkq : k = q
    · subst hkq
      simp [h]
    · simp [hkq]
  case isFalse h =>
    rw [hmLookup_replace]
    by_cases hkq : k = q
    · subst hkq
      obtain ⟨w, hw⟩ := Option.ne_none_iff_exists'.mp h
      simp [hw]
    · simp [hkq]

theorem hmLookup_eq_some_iff (m : HMap) (hnd : (hmKeys m).Nodup) (q v : Str) :
    hmLookup m q = some v ↔ (q, v) ∈ m := by
  induction m with
  | nil => simp [hmLookup]
  | cons p rest ih =>
    obtain ⟨a, b⟩ := p
    simp only [hmKeys, List.map_cons, List.nodup_cons] at hnd
    by_cases h : a = q
    · subst h
      have hnotin : (a, v) ∉ rest := fun hmem => hnd.1 (List.mem_map_of_mem Prod.fst hmem)
      simp only [hmLookup, if_pos rfl, List.mem_cons]
      constructor
      · rintro h2
        exact Or.inl (by simpa using congrArg (Prod.mk a) (Option.some.inj h2).symm)
      · rintro (h2 | h2)
        · simpa using congrArg Prod.snd h2.symm
        · exact absurd h2 hnotin
    · simp only [hmLookup, if_neg h, List.mem_cons]
      rw [ih hnd.2]
      constructor
      · exact Or.inr
      · rintro (h2 | h2)
        · exact absurd (congrArg Prod.fst h2).symm h
        · exact h2

/-! ### The load loop, line by line -/

theorem processLine_eq (acc : HMap) (l : Str) :
    processLine acc l =
      match lineEntry l with
      | some p => hmInsert acc p.1 p.2
      | none => acc := by
  unfold processLine lineEntry
  cases h : splitWhitespace l with
  | nil => rfl
  | cons c rest => cases rest <;> rfl

theorem hmLookup_load_fold (ls : List Str) (acc : HMap) (f : Str) :
    hmLookup (ls.foldl processLine acc) f =
      ls.foldl (fun o l =>
        match lineEntry l with
        | some p => if p.1 = f then some p.2 else o
        | none => o) (hmLookup acc f) := by
  induction ls generalizing acc with
  | nil => rfl
  | cons l rest ih =>
    simp only [List.foldl_cons]
    rw [ih]
    have hstep : hmLookup (processLine acc l) f =
        (match lineEntry l with
         | some p => if p.1 = f then some p.2 else hmLookup acc f
         | none => hmLookup acc f) := by
      rw [processLine_eq]
      cases lineEntry l with
      | none => rfl
      | some p => simp [hmLookup_insert]
    rw [hstep]

theorem foldl_lastWins (xs : List (Str × Str)) (f : Str) (o : Option Str) :
    xs.foldl (fun o p => if p.1 = f then some p.2 else o) o =
      ((xs.filter (fun p => decide (p.1 = f))).getLast?.map Prod.snd).or o := by
  induction xs using List.reverseRecOn with
  | nil => simp
  | append_singleton xs x ih =>
    rw [List.foldl_append, List.filter_append]
    by_cases h : x.1 = f
    · simp [h]
    · simp [h, ih]

theorem foldl_filterMap_lineEntry (ls : List Str) (o : Option Str) (f : Str) :
    ls.foldl (fun o l =>
      match lineEntry l with
      | some p => if p.1 = f then some p.2 else o
      | none => o) o =
    (ls.filterMap lineEntry).foldl (fun o p => if p.1 = f then some p.2 else o) o := by
  induction ls generalizing o with
  | nil => rfl
  | cons l rest ih =>
    simp only [List.foldl_cons, List.filterMap_cons]
    cases h : lineEntry l with
    | none => simp [h, ih]
    | some p => simp [h, ih]

theorem load_lines_map_ok (ls : List Str) :
    load_checksums_lines (ls.map Except.ok) = ls.foldl processLine [] := by
  unfold load_checksums_lines
  rw [List.foldl_map]
  rfl

/-- C3: `load_checksums` splits each line on whitespace and maps the second
token (the filename) to the first token (the checksum); a line with fewer
than two whitespace-separated tokens contributes no entry, tokens beyond the
second are ignored, and when the same filename occurs on several lines the
last occurrence in the file determines its checksum. -/
theorem c3_load_line_semantics (ls : List Str) (f : Str) :
    hmLookup (load_checksums_lines (ls.map Except.ok)) f =
      ((ls.filterMap lineEntry).filter (fun p => decide (p.1 = f))).getLast?.map Prod.snd := by
  rw [load_lines_map_ok, hmLookup_load_fold, foldl_filterMap_lineEntry, foldl_lastWins]
  simp [hmLookup]

/-! ### C6: load fails exactly on an unopenable file -/

theorem load_fold_errs (ls : List (Except Unit Str)) (acc : HMap) :
    ls.foldl loadStep acc = ((ls.filterMap Except.toOption).map Except.ok).foldl loadStep acc := by
  induction ls generalizing acc with
  | nil => rfl
  | cons r rest ih =>
    cases r <;> simp [loadStep, Except.toOption, ih, List.filterMap_cons]

/-- C6: `load_checksums` returns an I/O error exactly when the file cannot be
opened; line content never makes it fail — lines whose read fails are
dropped, and a line without two tokens adds no entry. -/
theorem c6_load_error_iff_unopenable (file : Option (List (Except Unit Str)))
    (ls : List (Except Unit Str)) (acc : HMap) (l : Str) :
    ((load_checksums file).isOk = false ↔ file = none) ∧
    load_checksums none = .error .otherError ∧
    load_checksums_lines ls =
      load_checksums_lines ((ls.filterMap Except.toOption).map Except.ok) ∧
    (lineEntry l = none → processLine acc l = acc) := by
  refine ⟨?_, rfl, ?_, ?_⟩
  · cases file <;> simp [load_checksums, Except.isOk, Except.toBool]
  · exact load_fold_errs ls []
  · intro h
    rw [processLine_eq, h]

/-- Closed instance of `c6_load_error_iff_unopenable`: an unopenable file is
the error case, and an opened file with a failing line and a one-token line
loads without error and without entries. -/
theorem c6_load_error_iff_unopenable_witness :
    ((load_checksums none).isOk = false ↔ (none : Option (List (Except Unit Str))) = none) ∧
    load_checksums none = .error .otherError ∧
    load_checksums_lines [Except.error (), Except.ok ['x']] =
      load_checksums_lines
        (([Except.error (), Except.ok ['x']].filterMap Except.toOption).map Except.ok) ∧
    (lineEntry ['x'] = none → processLine [] ['x'] = []) :=
  c6_load_error_iff_unopenable none [Except.error (), Except.ok ['x']] [] ['x']

/-! ### C1: the archive contains exactly the added and changed keys -/

theorem changedB_eq_true_iff (oldC : HMap) (f h : Str) :
    changedB oldC f h = true ↔ hmLookup oldC f ≠ some h := by
  unfold changedB
  cases hx : hmLookup oldC f <;> simp

/-- The entry names `write_archive` appends when every source file opens. -/
def archiveNames (newC oldC : HMap) : List Str :=
  (newC.filter (fun kv => changedB oldC kv.1 kv.2)).map Prod.fst

theorem archiveGo_allOk (oldC : HMap) (root : Str) (entries : List (Str × Str))
    (acc : List Str) :
    archiveGo oldC root (fun _ => true) entries acc =
      .ok (acc ++ (entries.filter (fun kv => changedB oldC kv.1 kv.2)).map Prod.fst) := by
  induction entries generalizing acc with
  | nil => simp [archiveGo]
  | cons kv rest ih =>
    by_cases h : changedB oldC kv.1 kv.2 <;> simp [archiveGo, h, ih]

theorem mem_archiveNames (newC oldC : HMap) (hnd : (hmKeys newC).Nodup) (q : Str) :
    q ∈ archiveNames newC oldC ↔
      (hmLookup newC q).isSome = true ∧ hmLookup oldC q ≠ hmLookup newC q := by
  unfold archiveNames
  rw [List.mem_map]
  constructor
  · rintro ⟨kv, hmem, rfl⟩
    rw [List.mem_filter] at hmem
    have hlook : hmLookup newC kv.1 = some kv.2 :=
      (hmLookup_eq_some_iff newC hnd kv.1 kv.2).mpr (by rw [Prod.mk.eta]; exact hmem.1)
    refine ⟨by simp [hlook], ?_⟩
    rw [hlook]
    exact (changedB_eq_true_iff oldC kv.1 kv.2).mp hmem.2
  · rintro ⟨hsome, hne⟩
    obtain ⟨v, hv⟩ := Option.isSome_iff_exists.mp hsome
    refine ⟨(q, v), ?_, rfl⟩
    rw [List.mem_filter]
    refine ⟨(hmLookup_eq_some_iff newC hnd q v).mp hv, ?_⟩
    rw [changedB_eq_true_iff]
    rw [hv] at hne
    exact hne

/-- C1: on a run where the destination is created and every source file
opens, the set of entry names written into the archive is exactly the set of
keys of the fresh manifest that are absent from the baseline or bound there
to a different digest; keys with equal digests and baseline-only keys are
never appended. -/
theorem c1_archive_entry_set (newC oldC : HMap) (root : Str) (q : Str)
    (hnd : (hmKeys newC).Nodup) :
    write_archive newC oldC root (fun _ => true) true = .ok (archiveNames newC oldC) ∧
    (q ∈ archiveNames newC oldC ↔
      (hmLookup newC q).isSome = true ∧ hmLookup oldC q ≠ hmLookup newC q) := by
  constructor
  · unfold write_archive
    rw [if_pos rfl]
    simpa using archiveGo_allOk oldC root newC []
  · exact mem_archiveNames newC oldC hnd q

/-- Closed instance of `c1_archive_entry_set`: with baseline a↦1 and fresh
manifest a↦1, b↦2, exactly b is archived. -/
theorem c1_archive_entry_set_witness :
    write_archive [(['a'], ['1']), (['b'], ['2'])] [(['a'], ['1'])] []
        (fun _ => true) true =
      .ok (archiveNames [(['a'], ['1']), (['b'], ['2'])] [(['a'], ['1'])]) ∧
    (['b'] ∈ archiveNames [(['a'], ['1']), (['b'], ['2'])] [(['a'], ['1'])] ↔
      (hmLookup [(['a'], ['1']), (['b'], ['2'])] ['b']).isSome = true ∧
      hmLookup [(['a'], ['1'])] ['b'] ≠ hmLookup [(['a'], ['1']), (['b'], ['2'])] ['b']) :=
  c1_archive_entry_set [(['a'], ['1']), (['b'], ['2'])] [(['a'], ['1'])] [] ['b'] (by decide)

/-! ### C8: save writes one line per entry and surfaces write failures -/

theorem saveGo_spec (w : Nat → Bool) (entries : List (Str × Str)) (i : Nat) (content : Str) :
    saveGo w entries i content =
      if ∀ j < entries.length, w (i + j) = true then
        .ok (content ++ (entries.map fmtEntry).flatten)
      else .error .otherError := by
  induction entries generalizing i content with
  | nil => simp [saveGo]
  | cons kv rest ih =>
    unfold saveGo
    by_cases hw : w i
    · rw [if_pos hw, ih]
      by_cases hall : ∀ j < rest.length, w (i + 1 + j) = true
      · rw [if_pos hall, if_pos ?side]
        · simp
        case side =>
          intro j hj
          cases j with
          | zero => simpa using hw
          | succ j2 =>
            have := hall j2 (by simpa using hj)
            simpa [Nat.add_comm, Nat.add_assoc, Nat.add_left_comm] using this
      · rw [if_neg hall, if_neg ?side2]
        case side2 =>
          intro hforall
          apply hall
          intro j hj
          have := hforall (j + 1) (by simpa using hj)
          simpa [Nat.add_comm, Nat.add_assoc, Nat.add_left_comm] using this
    · rw [if_neg hw, if_neg ?side3]
      case side3 =>
        intro hforall
        exact hw (hforall 0 (by simp))

/-- C8: `save_checksums` truncates the output file (its result is independent
of the previous content), succeeds exactly when creation and every entry
write succeed, and then the content is one line per entry in the form
checksum, tab, filename, newline; a failed write surfaces as an error, never
as success after a partial write. -/
theorem c8_save_format_and_errors (m : HMap) (o : WOracle) (old old2 : Str) :
    ((save_checksums m o old).isOk = true ↔
      (o.createOk = true ∧ ∀ i < m.length, o.writeOk i = true)) ∧
    save_checksums m o old = save_checksums m o old2 ∧
    (o.createOk = true → (∀ i < m.length, o.writeOk i = true) →
      save_checksums m o old = .ok (saveContent m)) := by
  refine ⟨?_, rfl, ?_⟩
  · unfold save_checksums
    by_cases hc : o.createOk
    · rw [if_pos hc, saveGo_spec]
      by_cases hall : ∀ j < m.length, o.writeOk (0 + j) = true
      · rw [if_pos hall]
        simp only [Except.isOk, Except.toBool, true_iff]
        exact ⟨hc, fun i hi => by simpa using hall i hi⟩
      · rw [if_neg hall]
        simp only [Except.isOk, Except.toBool, Bool.false_eq_true, false_iff, not_and]
        intro _ hforall
        exact hall fun j hj => by simpa using hforall j hj
    · rw [if_neg hc]
      simp only [Except.isOk, Except.toBool, Bool.false_eq_true, false_iff, not_and]
      intro hc2
      exact absurd hc2 hc
  · intro hc hall
    unfold save_checksums
    rw [if_pos hc, saveGo_spec, if_pos fun j hj => by simpa using hall j hj]
    rfl

/-- Closed instance of `c8_save_format_and_errors` at a one-entry manifest
with an all-succeeding oracle. -/
theorem c8_save_format_and_errors_witness :
    save_checksums [(['a'], ['1'])] ⟨true, fun _ => true⟩ ['z'] =
      .ok (saveContent [(['a'], ['1'])]) :=
  (c8_save_format_and_errors [(['a'], ['1'])] ⟨true, fun _ => true⟩ ['z'] []).2.2 rfl
    (fun _ _ => rfl)

/-! ### C4: archive failure modes (corrected) -/

theorem archiveGo_panics (oldC : HMap) (root : Str) (srcOk : Str → Bool)
    (entries : List (Str × Str)) (acc : List Str)
    (h : ∃ kv ∈ entries, changedB oldC kv.1 kv.2 = true ∧
      srcOk (pathPushStr root kv.1) = false) :
    archiveGo oldC root srcOk entries acc = .panicked := by
  induction entries generalizing acc with
  | nil => simp at h
  | cons kv rest ih =>
    obtain ⟨p, hp, hch, hop⟩ := h
    rcases List.mem_cons.mp hp with rfl | hmem
    · simp [archiveGo, hch, hop]
    · by_cases hc : changedB oldC kv.1 kv.2
      · by_cases ho : srcOk (pathPushStr root kv.1)
        · simp only [archiveGo, if_pos hc, if_pos ho]
          exact ih _ ⟨p, hmem, hch, hop⟩
        · simp [archiveGo, hc, ho]
      · simp only [archiveGo, if_neg hc]
        exact ih _ ⟨p, hmem, hch, hop⟩

theorem archiveGo_ok_srcOk (oldC : HMap) (root : Str) (srcOk : Str → Bool)
    (entries : List (Str × Str)) (acc es : List Str)
    (h : archiveGo oldC root srcOk entries acc = .ok es) :
    ∀ kv ∈ entries, changedB oldC kv.1 kv.2 = true → srcOk (pathPushStr root kv.1) = true := by
  induction entries generalizing acc with
  | nil => simp
  | cons kv rest ih =>
    intro p hp hch
    rcases List.mem_cons.mp hp with rfl | hmem
    · by_cases ho : srcOk (pathPushStr root p.1)
      · exact ho
      · rw [archiveGo, if_pos hch, if_neg ho] at h
        cases h
    · by_cases hc : changedB oldC kv.1 kv.2
      · by_cases ho : srcOk (pathPushStr root kv.1)
        · rw [archiveGo, if_pos hc, if_pos ho] at h
          exact ih _ h p hmem hch
        · rw [archiveGo, if_pos hc, if_neg ho] at h
          cases h
      · rw [archiveGo, if_neg hc] at h
        exact ih _ h p hmem hch

/-- C4 (amended): `write_archive` returns an I/O error exactly for a failure
to create the destination; a failure to open a source file selected for
archiving makes the whole write panic — fatal, never skipped — rather than
return the error, and a successful write implies every selected source file
opened. -/
theorem c4_archive_failure_modes (newC oldC : HMap) (root : Str) (srcOk : Str → Bool)
    (es : List Str) :
    write_archive newC oldC root srcOk false = .ioError ∧
    ((∃ kv ∈ newC, changedB oldC kv.1 kv.2 = true ∧
        srcOk (pathPushStr root kv.1) = false) →
      write_archive newC oldC root srcOk true = .panicked) ∧
    (write_archive newC oldC root srcOk true = .ok es →
      ∀ kv ∈ newC, changedB oldC kv.1 kv.2 = true →
        srcOk (pathPushStr root kv.1) = true) := by
  refine ⟨rfl, ?_, ?_⟩
  · intro h
    unfold write_archive
    rw [if_pos rfl]
    exact archiveGo_panics oldC root srcOk newC [] h
  · intro h
    unfold write_archive at h
    rw [if_pos rfl] at h
    exact archiveGo_ok_srcOk oldC root srcOk newC [] es h

/-- C4 counterexample: with fresh manifest a↦1, empty baseline, and a source
file that cannot be opened, `write_archive` panics; it does not return an
I/O error as the claim states. -/
theorem c4_counterexample :
    write_archive [(['a'], ['1'])] [] [] (fun _ => false) true = .panicked ∧
    write_archive [(['a'], ['1'])] [] [] (fun _ => false) true ≠ .ioError := by
  exact ⟨rfl, by decide⟩

/-- Closed instance of `c4_archive_failure_modes`: destination-create failure
returns the error; an unopenable selected source file panics. -/
theorem c4_archive_failure_modes_witness :
    write_archive [(['a'], ['1'])] [] [] (fun _ => false) false = .ioError ∧
    write_archive [(['a'], ['1'])] [] [] (fun _ => false) true = .panicked :=
  ⟨(c4_archive_failure_modes [(['a'], ['1'])] [] [] (fun _ => false) []).1,
   (c4_archive_failure_modes [(['a'], ['1'])] [] [] (fun _ => false) []).2.1
     ⟨(['a'], ['1']), by decide, by decide, rfl⟩⟩

theorem mainLoadStep_eq : mainLoadStep = loadStep := by
  funext acc r
  cases r <;> rfl

theorem mainScanNode_eq : mainScanNode = scanNode := by
  funext root hashFn m n
  rfl

theorem mainScanNodes_eq (root : Bytes) (hashFn : Bytes → Str) (ns : List Node) (m : HMap) :
    mainScanNodes root hashFn ns m = scanNodes root hashFn ns m := by
  induction ns generalizing m with
  | nil => rfl
  | cons n rest ih =>
    unfold mainScanNodes scanNodes
    rw [mainScanNode_eq]
    cases h : scanNode root hashFn m n <;> simp [h, ih]

theorem mainScanSources_eq (root : Bytes) (walk : Bytes → List Node) (hashFn : Bytes → Str)
    (sources : List Str) (m : HMap) :
    mainScanSources root walk hashFn sources m = scanSources root walk hashFn sources m := by
  induction sources generalizing m with
  | nil => rfl
  | cons s rest ih =>
    unfold mainScanSources scanSources
    rw [mainScanNodes_eq]
    cases h : scanNodes root hashFn (walk (pathPushB root s)) m <;> simp [h, ih]

theorem mainSaveGo_eq (w : Nat → Bool) (entries : List (Str × Str)) (i : Nat) (content : Str) :
    mainSaveGo w entries i content = saveGo w entries i content := by
  induction entries generalizing i content with
  | nil => rfl
  | cons kv rest ih =>
    unfold mainSaveGo saveGo
    by_cases h : w i <;> simp [h, ih]

theorem mainArchiveGo_eq (oldC : HMap) (root : Str) (srcOk : Str → Bool)
    (entries : List (Str × Str)) (acc : List Str) :
    mainArchiveGo oldC root srcOk entries acc = archiveGo oldC root srcOk entries acc := by
  induction entries generalizing acc with
  | nil => rfl
  | cons kv rest ih =>
    unfold mainArchiveGo archiveGo
    by_cases hc : changedB oldC kv.1 kv.2
    · by_cases ho : srcOk (pathPushStr root kv.1) <;> simp [hc, ho, ih]
    · simp [hc, ih]

/-- C9: the code inlined in `do_main` in `main.rs` is equivalent to the
public functions in `operations.rs`: the inline checksum-loading loop, the
inline scan loop, the inline checksum-writing block and the inline archive
block compute the same results as `load_checksums`, `checksum_directory`,
`save_checksums` and `write_archive` respectively, on every input. -/
theorem c9_do_main_matches_operations :
    (∀ ls, mainLoadLoop ls = load_checksums_lines ls) ∧
    (∀ sources root walk hashFn,
      mainScan sources root walk hashFn = checksum_directory sources root walk hashFn) ∧
    (∀ m o old, mainWriteChecksums m o old = save_checksums m o old) ∧
    (∀ newC oldC root srcOk createOk,
      mainArchiveBlock newC oldC root srcOk createOk =
        write_archive newC oldC root srcOk createOk) := by
  refine ⟨?_, ?_, ?_, ?_⟩
  · intro ls
    unfold mainLoadLoop load_checksums_lines
    rw [mainLoadStep_eq]
  · intro sources root walk hashFn
    unfold mainScan checksum_directory
    exact mainScanSources_eq root walk hashFn sources []
  · intro m o old
    unfold mainWriteChecksums save_checksums
    rw [mainSaveGo_eq]
  · intro newC oldC root srcOk createOk
    unfold mainArchiveBlock write_archive
    rw [mainArchiveGo_eq]

/-! ### C2: save/load round trip (corrected) -/

/-- A lowercase hexadecimal digit. -/
def isHexChar (c : Char) : Bool :=
  (48 ≤ c.toNat && c.toNat ≤ 57) || (97 ≤ c.toNat && c.toNat ≤ 102)

/-- A well-formed lowercase-hex digest of the fixed hash (40 hex chars). -/
def isDigestStr (v : Str) : Bool := v.length == 40 && v.all isHexChar

/-- A key that survives the manifest text format: nonempty and free of
whitespace. -/
def goodKey (k : Str) : Bool := !k.isEmpty && k.all (fun c => !isWs c)

theorem isWs_false_of_isHexChar (c : Char) (h : isHexChar c = true) : isWs c = false := by
  unfold isHexChar at h
  unfold isWs
  simp only [Bool.or_eq_true, Bool.and_eq_true, decide_eq_true_eq] at h
  rw [Bool.eq_false_iff]
  intro htrue
  unfold isWsN at htrue
  simp only [Bool.or_eq_true, beq_iff_eq, Bool.and_eq_true, decide_eq_true_eq] at htrue
  rcases h with ⟨h1, h2⟩ | ⟨h1, h2⟩ <;> omega

theorem splitWsAux_token (t s : Str) (acc : List Char) (h : ∀ c ∈ t, isWs c = false) :
    splitWsAux (t ++ s) acc = splitWsAux s (t.reverse ++ acc) := by
  induction t generalizing acc with
  | nil => simp
  | cons c t2 ih =>
    have hc : isWs c = false := h c (List.mem_cons_self c t2)
    rw [List.cons_append]
    rw [show splitWsAux (c :: (t2 ++ s)) acc = splitWsAux (t2 ++ s) (c :: acc) by
      simp [splitWsAux, hc]]
    rw [ih _ fun d hd => h d (List.mem_cons_of_mem c hd)]
    congr 1
    simp

theorem splitWs_single (k : Str) (hk : k ≠ []) (h : ∀ c ∈ k, isWs c = false) :
    splitWsAux k [] = [k] := by
  have ht := splitWsAux_token k [] [] h
  rw [List.append_nil] at ht
  rw [ht]
  simp [splitWsAux, hk]

theorem splitWhitespace_pair (v k : Str) (hv : v ≠ []) (hvw : ∀ c ∈ v, isWs c = false)
    (hk : k ≠ []) (hkw : ∀ c ∈ k, isWs c = false) :
    splitWhitespace (v ++ '\t' :: k) = [v, k] := by
  unfold splitWhitespace
  rw [splitWsAux_token v _ [] hvw, List.append_nil]
  have htab : isWs '\t' = true := by decide
  have hne : v.reverse.isEmpty = false := by
    simp [List.isEmpty_iff, hv]
  simp only [splitWsAux, htab, if_true, hne, Bool.false_eq_true, if_false,
    List.reverse_reverse]
  rw [splitWs_single k hk hkw]

theorem linesAux_split (a rest : Str) (acc : List Char) (h : '\n' ∉ a) :
    linesAux (a ++ '\n' :: rest) acc = stripCR (acc.reverse ++ a) :: linesAux rest [] := by
  induction a generalizing acc with
  | nil => simp [linesAux]
  | cons c a2 ih =>
    have hc : ¬c = '\n' := fun hh => h (hh ▸ List.mem_cons_self c a2)
    rw [List.cons_append]
    rw [show linesAux (c :: (a2 ++ '\n' :: rest)) acc = linesAux (a2 ++ '\n' :: rest) (c :: acc) by
      simp [linesAux, hc]]
    rw [ih _ fun hm => h (List.mem_cons_of_mem c hm)]
    congr 2
    simp

theorem fmtLine_getLast_not_cr (v k : Str) (hk : k ≠ []) (h : ∀ c ∈ k, isWs c = false) :
    (v ++ '\t' :: k).getLast? ≠ some '\r' := by
  have h1 : (v ++ '\t' :: k).getLast? = k.getLast? := by
    rw [List.getLast?_append_of_ne_nil v (show ('\t' :: k) ≠ [] by simp),
      show '\t' :: k = ['\t'] ++ k from rfl, List.getLast?_append_of_ne_nil ['\t'] hk]
  rw [h1, List.getLast?_eq_getLast_of_ne_nil hk]
  intro hc
  have heq : k.getLast hk = '\r' := Option.some.inj hc
  have hws : isWs (k.getLast hk) = false := h _ (List.getLast_mem hk)
  rw [heq] at hws
  exact absurd hws (by decide)

theorem mem_line_not_nl (v k : Str) (hvw : ∀ c ∈ v, isWs c = false)
    (hkw : ∀ c ∈ k, isWs c = false) : '\n' ∉ v ++ '\t' :: k := by
  intro hmem
  rcases List.mem_append.mp hmem with hmem2 | hmem2
  · exact absurd (hvw _ hmem2) (by decide)
  · rcases List.mem_cons.mp hmem2 with hmem3 | hmem3
    · exact absurd hmem3 (by decide)
    · exact absurd (hkw _ hmem3) (by decide)

/-- The hypotheses under which the saved text round-trips: nonempty
whitespace-free keys and well-formed digests. -/
def goodEntry (kv : Str × Str) : Bool := goodKey kv.1 && isDigestStr kv.2

theorem goodEntry_key_ne_nil (kv : Str × Str) (h : goodEntry kv = true) : kv.1 ≠ [] := by
  unfold goodEntry goodKey at h
  simp only [Bool.and_eq_true, Bool.not_eq_true'] at h
  simpa [List.isEmpty_iff] using h.1.1

theorem goodEntry_key_ws (kv : Str × Str) (h : goodEntry kv = true) :
    ∀ c ∈ kv.1, isWs c = false := by
  unfold goodEntry goodKey at h
  simp only [Bool.and_eq_true, List.all_eq_true, Bool.not_eq_true'] at h
  exact fun c hc => h.1.2 c hc

theorem goodEntry_val_ne_nil (kv : Str × Str) (h : goodEntry kv = true) : kv.2 ≠ [] := by
  unfold goodEntry isDigestStr at h
  simp only [Bool.and_eq_true, beq_iff_eq] at h
  intro hnil
  rw [hnil] at h
  simp at h

theorem goodEntry_val_ws (kv : Str × Str) (h : goodEntry kv = true) :
    ∀ c ∈ kv.2, isWs c = false := by
  unfold goodEntry isDigestStr at h
  simp only [Bool.and_eq_true, List.all_eq_true] at h
  exact fun c hc => isWs_false_of_isHexChar c (h.2.2 c hc)

theorem linesOf_saveContent (m : HMap) (hgood : ∀ kv ∈ m, goodEntry kv = true) :
    linesOf (saveContent m) = m.map (fun kv => kv.2 ++ '\t' :: kv.1) := by
  unfold linesOf saveContent
  induction m with
  | nil => rfl
  | cons kv rest ih =>
    have hkv := hgood kv (List.mem_cons_self kv rest)
    have hline : (List.map fmtEntry (kv :: rest)).flatten =
        (kv.2 ++ '\t' :: kv.1) ++ '\n' :: (List.map fmtEntry rest).flatten := by
      simp [fmtEntry]
    rw [hline, linesAux_split _ _ []
      (mem_line_not_nl kv.2 kv.1 (goodEntry_val_ws kv hkv) (goodEntry_key_ws kv hkv))]
    rw [List.reverse_nil, List.nil_append]
    rw [stripCR, if_neg (fmtLine_getLast_not_cr kv.2 kv.1 (goodEntry_key_ne_nil kv hkv)
      (goodEntry_key_ws kv hkv))]
    rw [List.map_cons]
    congr 1
    exact ih fun p hp => hgood p (List.mem_cons_of_mem kv hp)

theorem processLine_saved (acc : HMap) (kv : Str × Str) (h : goodEntry kv = true) :
    processLine acc (kv.2 ++ '\t' :: kv.1) = hmInsert acc kv.1 kv.2 := by
  unfold processLine
  rw [splitWhitespace_pair kv.2 kv.1 (goodEntry_val_ne_nil kv h) (goodEntry_val_ws kv h)
    (goodEntry_key_ne_nil kv h) (goodEntry_key_ws kv h)]

theorem foldl_processLine_saved (entries : List (Str × Str)) (acc : HMap)
    (hgood : ∀ kv ∈ entries, goodEntry kv = true) :
    entries.foldl (fun a kv => processLine a (kv.2 ++ '\t' :: kv.1)) acc =
      entries.foldl (fun a kv => hmInsert a kv.1 kv.2) acc := by
  induction entries generalizing acc with
  | nil => rfl
  | cons kv rest ih =>
    simp only [List.foldl_cons]
    rw [processLine_saved acc kv (hgood kv (List.mem_cons_self kv rest))]
    exact ih _ fun p hp => hgood p (List.mem_cons_of_mem kv hp)

theorem hmLookup_eq_none_of_not_mem (m : HMap) (q : Str) (h : q ∉ hmKeys m) :
    hmLookup m q = none := by
  induction m with
  | nil => rfl
  | cons kv rest ih =>
    simp only [hmKeys, List.map_cons, List.mem_cons, not_or] at h
    have hne : ¬kv.1 = q := fun hh => h.1 hh.symm
    cases kv
    simp only [hmLookup, if_neg hne]
    exact ih (by simpa [hmKeys] using h.2)

theorem hmLookup_foldl_insert (m : HMap) (acc : HMap) (q : Str)
    (hnd : (hmKeys m).Nodup) :
    hmLookup (m.foldl (fun acc kv => hmInsert acc kv.1 kv.2) acc) q =
      (hmLookup m q).or (hmLookup acc q) := by
  induction m generalizing acc with
  | nil => simp [hmLookup]
  | cons kv rest ih =>
    simp only [hmKeys, List.map_cons, List.nodup_cons] at hnd
    rw [List.foldl_cons, ih _ hnd.2]
    by_cases h : kv.1 = q
    · have hnone : hmLookup rest q = none :=
        hmLookup_eq_none_of_not_mem rest q (h ▸ hnd.1)
      cases kv
      simp_all [hmLookup, hmLookup_insert]
    · cases kv
      simp_all [hmLookup, hmLookup_insert]

/-- C2 (amended): for every manifest whose keys are distinct, nonempty and
whitespace-free and whose values are well-formed lowercase-hex digests,
saving and then loading yields a map equal to the original, regardless of the
order in which save emitted the entries (the manifest is quantified as an
arbitrarily ordered association list). -/
theorem c2_save_load_round_trip (m : HMap) (q : Str) (hnd : (hmKeys m).Nodup)
    (hgood : ∀ kv ∈ m, goodEntry kv = true) :
    save_checksums m ⟨true, fun _ => true⟩ [] = .ok (saveContent m) ∧
    hmLookup (load_checksums_lines ((linesOf (saveContent m)).map Except.ok)) q =
      hmLookup m q := by
  constructor
  · unfold save_checksums
    rw [if_pos rfl, saveGo_spec, if_pos fun j hj => rfl]
    rfl
  · rw [linesOf_saveContent m hgood, load_lines_map_ok, List.foldl_map]
    rw [show List.foldl (fun x y => processLine x (y.2 ++ '\t' :: y.1)) ([] : HMap) m =
        List.foldl (fun a kv => hmInsert a kv.1 kv.2) ([] : HMap) m from
      foldl_processLine_saved m [] hgood]
    rw [hmLookup_foldl_insert m [] q hnd]
    simp [hmLookup]

/-- Closed instance of `c2_save_load_round_trip` at a one-entry manifest with
a whitespace-free key and a 40-char lowercase-hex digest. -/
theorem c2_save_load_round_trip_witness :
    save_checksums [(['k'], List.replicate 40 'a')] ⟨true, fun _ => true⟩ [] =
      .ok (saveContent [(['k'], List.replicate 40 'a')]) ∧
    hmLookup (load_checksums_lines
        ((linesOf (saveContent [(['k'], List.replicate 40 'a')])).map Except.ok)) ['k'] =
      hmLookup [(['k'], List.replicate 40 'a')] ['k'] :=
  c2_save_load_round_trip [(['k'], List.replicate 40 'a')] ['k'] (by decide) (by decide)

/-- C2 counterexample: two manifests with distinct keys and well-formed
lowercase-hex digests for which load-after-save does not restore the map —
one whose key contains a space (the parsed filename token stops at the
space), one whose key is empty (the saved line has one token and is
skipped) — refuting the claim as stated. -/
theorem c2_counterexample :
    ((hmKeys [(['a', ' ', 'b'], List.replicate 40 'a')]).Nodup ∧
      [(['a', ' ', 'b'], List.replicate 40 'a')].all (fun kv => isDigestStr kv.2) = true ∧
      save_checksums [(['a', ' ', 'b'], List.replicate 40 'a')] ⟨true, fun _ => true⟩ [] =
        .ok (saveContent [(['a', ' ', 'b'], List.replicate 40 'a')]) ∧
      hmLookup (load_checksums_lines
          ((linesOf (saveContent [(['a', ' ', 'b'], List.replicate 40 'a')])).map Except.ok))
          ['a', ' ', 'b'] ≠
        hmLookup [(['a', ' ', 'b'], List.replicate 40 'a')] ['a', ' ', 'b']) ∧
    ((hmKeys [(([] : Str), List.replicate 40 'a')]).Nodup ∧
      [(([] : Str), List.replicate 40 'a')].all (fun kv => isDigestStr kv.2) = true ∧
      save_checksums [(([] : Str), List.replicate 40 'a')] ⟨true, fun _ => true⟩ [] =
        .ok (saveContent [(([] : Str), List.replicate 40 'a')]) ∧
      hmLookup (load_checksums_lines
          ((linesOf (saveContent [(([] : Str), List.replicate 40 'a')])).map Except.ok)) [] ≠
        hmLookup [(([] : Str), List.replicate 40 'a')] []) := by
  exact ⟨⟨by decide, by decide, rfl, by decide⟩, ⟨by decide, by decide, rfl, by decide⟩⟩

/-! ### Scan lemmas (C5, C7, C10) -/

/-- Whether a byte string is valid UTF-8 (so `to_str()` succeeds on it). -/
def validUtf8 (b : Bytes) : Bool := (decodeUtf8 b).isSome

theorem nodeKey_ne_none_of_validUtf8 (root p : Bytes) (h1 : validUtf8 p = true)
    (h2 : ∀ r, stripRoot root p = some r → validUtf8 r = true) :
    nodeKey root p ≠ none := by
  unfold nodeKey
  unfold validUtf8 at h1
  cases hs : stripRoot root p with
  | none =>
    cases hd : decodeUtf8 p
    · rw [hd] at h1
      cases h1
    · simp [hd]
  | some r =>
    have hr := h2 r hs
    unfold validUtf8 at hr
    cases hd : decodeUtf8 r with
    | none =>
      rw [hd] at hr
      cases hr
    | some s =>
      cases hp : decodeUtf8 p with
      | none =>
        rw [hp] at h1
        cases h1
      | some t => simp [hd, hp]

theorem hmLookup_insert_isSome_mono (m : HMap) (k v q : Str)
    (h : (hmLookup m q).isSome = true) :
    (hmLookup (hmInsert m k v) q).isSome = true := by
  rw [hmLookup_insert]
  split <;> simp [h]

theorem hmLookup_insert_self_isSome (m : HMap) (k v : Str) :
    (hmLookup (hmInsert m k v) k).isSome = true := by
  rw [hmLookup_insert]
  simp

theorem scanNodes_ok (root : Bytes) (hashFn : Bytes → Str) (ns : List Node) (m : HMap)
    (h : ∀ n ∈ ns, n.isFile = true →
      n.access ≠ .readFail ∧ ∀ c, n.access = .ok c → nodeKey root n.path ≠ none) :
    ∃ m2, scanNodes root hashFn ns m = .ok m2 ∧
      (∀ q, (hmLookup m q).isSome = true → (hmLookup m2 q).isSome = true) ∧
      (∀ n ∈ ns, n.isFile = true → ∀ c, n.access = .ok c →
        ∀ k, nodeKey root n.path = some k → (hmLookup m2 k).isSome = true) := by
  induction ns generalizing m with
  | nil => exact ⟨m, rfl, fun q hq => hq, by simp⟩
  | cons n rest ih =>
    have hrest : ∀ p ∈ rest, p.isFile = true →
        p.access ≠ .readFail ∧ ∀ c, p.access = .ok c → nodeKey root p.path ≠ none :=
      fun p hp => h p (List.mem_cons_of_mem n hp)
    by_cases hf : n.isFile = true
    · rcases h n (List.mem_cons_self n rest) hf with ⟨hnread, hnutf⟩
      cases ha : n.access with
      | openFail =>
        have hstep : scanNode root hashFn m n = .ok m := by
          simp [scanNode, hf, ha]
        obtain ⟨m2, hm2, hmono, hins⟩ := ih m hrest
        refine ⟨m2, ?_, hmono, ?_⟩
        · simp only [scanNodes]
          rw [hstep]
          exact hm2
        · intro p hp hpf c hc k hk
          rcases List.mem_cons.mp hp with rfl | hp2
          · rw [ha] at hc
            cases hc
          · exact hins p hp2 hpf c hc k hk
      | readFail => exact absurd ha hnread
      | ok c =>
        obtain ⟨k0, hk0⟩ := Option.ne_none_iff_exists'.mp (hnutf c ha)
        have hstep : scanNode root hashFn m n = .ok (hmInsert m k0 (hashFn c)) := by
          simp [scanNode, hf, ha, hk0]
        obtain ⟨m2, hm2, hmono, hins⟩ := ih (hmInsert m k0 (hashFn c)) hrest
        refine ⟨m2, ?_, ?_, ?_⟩
        · simp only [scanNodes]
          rw [hstep]
          exact hm2
        · intro q hq
          exact hmono q (hmLookup_insert_isSome_mono m k0 (hashFn c) q hq)
        · intro p hp hpf c2 hc2 k hk
          rcases List.mem_cons.mp hp with rfl | hp2
          · have hkk : k = k0 := by
              rw [hk0] at hk
              exact (Option.some.inj hk).symm
            rw [hkk]
            exact hmono k0 (hmLookup_insert_self_isSome m k0 (hashFn c))
          · exact hins p hp2 hpf c2 hc2 k hk
    · have hf2 : n.isFile = false := by
        cases hb : n.isFile
        · rfl
        · exact absurd hb hf
      have hstep : scanNode root hashFn m n = .ok m := by
        simp [scanNode, hf2]
      obtain ⟨m2, hm2, hmono, hins⟩ := ih m hrest
      refine ⟨m2, ?_, hmono, ?_⟩
      · simp only [scanNodes]
        rw [hstep]
        exact hm2
      · intro p hp hpf c hc k hk
        rcases List.mem_cons.mp hp with rfl | hp2
        · exact absurd hpf hf
        · exact hins p hp2 hpf c hc k hk

theorem scanSources_ok (root : Bytes) (walk : Bytes → List Node) (hashFn : Bytes → Str)
    (sources : List Str) (m : HMap)
    (h : ∀ s ∈ sources, ∀ n ∈ walk (pathPushB root s), n.isFile = true →
      n.access ≠ .readFail ∧ ∀ c, n.access = .ok c → nodeKey root n.path ≠ none) :
    ∃ m2, scanSources root walk hashFn sources m = .ok m2 ∧
      (∀ q, (hmLookup m q).isSome = true → (hmLookup m2 q).isSome = true) ∧
      (∀ s ∈ sources, ∀ n ∈ walk (pathPushB root s), n.isFile = true →
        ∀ c, n.access = .ok c → ∀ k, nodeKey root n.path = some k →
          (hmLookup m2 k).isSome = true) := by
  induction sources generalizing m with
  | nil => exact ⟨m, rfl, fun q hq => hq, by simp⟩
  | cons s rest ih =>
    obtain ⟨m1, hm1, hmono1, hins1⟩ :=
      scanNodes_ok root hashFn (walk (pathPushB root s)) m
        (h s (List.mem_cons_self s rest))
    obtain ⟨m2, hm2, hmono2, hins2⟩ :=
      ih m1 fun t ht => h t (List.mem_cons_of_mem s ht)
    refine ⟨m2, ?_, fun q hq => hmono2 q (hmono1 q hq), ?_⟩
    · simp only [scanSources]
      rw [hm1]
      exact hm2
    · intro t ht n hn hnf c hc k hk
      rcases List.mem_cons.mp ht with rfl | ht2
      · exact hmono2 k (hins1 n hn hnf c hc k hk)
      · exact hins2 t ht2 n hn hnf c hc k hk

theorem scanNodes_filter (root : Bytes) (hashFn : Bytes → Str) (ns : List Node) (m : HMap) :
    scanNodes root hashFn
        (ns.filter (fun n => n.isFile && !(n.access == NodeAccess.openFail))) m =
      scanNodes root hashFn ns m := by
  induction ns generalizing m with
  | nil => rfl
  | cons n rest ih =>
    by_cases hkeep : (n.isFile && !(n.access == NodeAccess.openFail)) = true
    · rw [List.filter_cons, if_pos hkeep]
      simp only [scanNodes]
      cases hstep : scanNode root hashFn m n with
      | ok m2 => exact ih m2
      | error k => rfl
    · rw [List.filter_cons, if_neg hkeep]
      have hstep : scanNode root hashFn m n = .ok m := by
        by_cases hfile : n.isFile = true
        · have hacc : n.access = NodeAccess.openFail := by
            simp only [hfile, Bool.true_and, Bool.not_eq_true', beq_eq_false_iff_ne,
              Bool.not_eq_true] at hkeep
            simpa using hkeep
          simp [scanNode, hfile, hacc]
        · have hf2 : n.isFile = false := by
            cases hb : n.isFile
            · rfl
            · exact absurd hb hfile
          simp [scanNode, hf2]
      conv_rhs => rw [show scanNodes root hashFn (n :: rest) m =
        (match scanNode root hashFn m n with
         | .ok m2 => scanNodes root hashFn rest m2
         | .error k => .panicked k) from rfl]
      rw [hstep]
      exact ih m

theorem scanSources_filter (root : Bytes) (walk : Bytes → List Node) (hashFn : Bytes → Str)
    (sources : List Str) (m : HMap) :
    scanSources root
        (fun p => (walk p).filter (fun n => n.isFile && !(n.access == NodeAccess.openFail)))
        hashFn sources m =
      scanSources root walk hashFn sources m := by
  induction sources generalizing m with
  | nil => rfl
  | cons s rest ih =>
    simp only [scanSources]
    rw [scanNodes_filter]
    cases hstep : scanNodes root hashFn (walk (pathPushB root s)) m with
    | ok m2 => exact ih m2
    | panicked k => rfl

theorem scanNodes_no_utf8_panic (root : Bytes) (hashFn : Bytes → Str) (ns : List Node)
    (m : HMap)
    (h : ∀ n ∈ ns, n.isFile = true → ∀ c, n.access = .ok c → nodeKey root n.path ≠ none) :
    scanNodes root hashFn ns m ≠ .panicked .utf8Panic := by
  induction ns generalizing m with
  | nil => intro hc; cases hc
  | cons n rest ih =>
    have hrest : ∀ p ∈ rest, p.isFile = true →
        ∀ c, p.access = .ok c → nodeKey root p.path ≠ none :=
      fun p hp => h p (List.mem_cons_of_mem n hp)
    by_cases hf : n.isFile = true
    · cases ha : n.access with
      | openFail =>
        simp only [scanNodes]
        rw [show scanNode root hashFn m n = .ok m by simp [scanNode, hf, ha]]
        exact ih m hrest
      | readFail =>
        simp only [scanNodes]
        rw [show scanNode root hashFn m n = .error .readPanic by simp [scanNode, hf, ha]]
        intro hc
        cases hc
      | ok c =>
        obtain ⟨k0, hk0⟩ := Option.ne_none_iff_exists'.mp
          (h n (List.mem_cons_self n rest) hf c ha)
        simp only [scanNodes]
        rw [show scanNode root hashFn m n = .ok (hmInsert m k0 (hashFn c)) by
          simp [scanNode, hf, ha, hk0]]
        exact ih _ hrest
    · have hf2 : n.isFile = false := by
        cases hb : n.isFile
        · rfl
        · exact absurd hb hf
      simp only [scanNodes]
      rw [show scanNode root hashFn m n = .ok m by simp [scanNode, hf2]]
      exact ih m hrest

theorem scanSources_no_utf8_panic (root : Bytes) (walk : Bytes → List Node)
    (hashFn : Bytes → Str) (sources : List Str) (m : HMap)
    (h : ∀ s ∈ sources, ∀ n ∈ walk (pathPushB root s), n.isFile = true →
      ∀ c, n.access = .ok c → nodeKey root n.path ≠ none) :
    scanSources root walk hashFn sources m ≠ .panicked .utf8Panic := by
  induction sources generalizing m with
  | nil => intro hc; cases hc
  | cons s rest ih =>
    simp only [scanSources]
    cases hstep : scanNodes root hashFn (walk (pathPushB root s)) m with
    | ok m2 => exact ih m2 fun t ht => h t (List.mem_cons_of_mem s ht)
    | panicked k =>
      intro hc
      injection hc with hk
      subst hk
      exact scanNodes_no_utf8_panic root hashFn (walk (pathPushB root s)) m
        (h s (List.mem_cons_self s rest)) hstep

/-! ### Path lemmas (C7) -/

theorem splitSlashAux_append (a b acc : Bytes) :
    splitSlashAux (a ++ 47 :: b) acc = splitSlashAux a acc ++ splitSlashAux b [] := by
  induction a generalizing acc with
  | nil => simp [splitSlashAux]
  | cons c a2 ih =>
    by_cases hc : c = 47
    · subst hc
      rw [List.cons_append]
      rw [show splitSlashAux (47 :: (a2 ++ 47 :: b)) acc =
          acc.reverse :: splitSlashAux (a2 ++ 47 :: b) [] by simp [splitSlashAux]]
      rw [ih]
      rw [show splitSlashAux (47 :: a2) acc = acc.reverse :: splitSlashAux a2 [] by
        simp [splitSlashAux]]
      rw [List.cons_append]
    · rw [List.cons_append]
      rw [show splitSlashAux (c :: (a2 ++ 47 :: b)) acc =
          splitSlashAux (a2 ++ 47 :: b) (c :: acc) by simp [splitSlashAux, hc]]
      rw [ih]
      rw [show splitSlashAux (c :: a2) acc = splitSlashAux a2 (c :: acc) by
        simp [splitSlashAux, hc]]

theorem pathComps_append (a b : Bytes) :
    pathComps (a ++ 47 :: b) = pathComps a ++ pathComps b := by
  unfold pathComps splitSlash
  rw [splitSlashAux_append, List.filter_append]

theorem isAbsB_append (root x : Bytes) (h : root ≠ []) :
    isAbsB (root ++ x) = isAbsB root := by
  cases root with
  | nil => exact absurd rfl h
  | cons c r => rfl

theorem stripRoot_push (root rel : Bytes) (h : root ≠ []) :
    stripRoot root (root ++ 47 :: rel) = some (joinSlash (pathComps rel)) := by
  unfold stripRoot
  rw [pathComps_append, isAbsB_append root (47 :: rel) h]
  have hcond : ((isAbsB root == isAbsB root) &&
      (pathComps root).isPrefixOf (pathComps root ++ pathComps rel)) = true := by
    simp [List.isPrefixOf_iff_prefix, List.prefix_append]
  rw [if_pos hcond, List.drop_left]

theorem stripRoot_fail (root p : Bytes)
    (h : ((isAbsB root == isAbsB p) &&
      (pathComps root).isPrefixOf (pathComps p)) = false) :
    nodeKey root p = decodeUtf8 p := by
  unfold nodeKey stripRoot
  rw [if_neg (by simp [h])]

/-! ### C5, C7, C10 -/

/-- C5 (amended): nodes that are not regular files and nodes that fail to
open are skipped silently (filtering them out of the walk does not change the
result); provided every opened file reads successfully and every hashed
file's path decodes as UTF-8, the remaining files are hashed and inserted and
the scan returns a manifest.  (As stated, the claim fails: a read failure on
an opened file panics, see the counterexample.) -/
theorem c5_scan_skips_and_returns (sources : List Str) (root : Bytes)
    (walk : Bytes → List Node) (hashFn : Bytes → Str)
    (hread : ∀ s ∈ sources, ∀ n ∈ walk (pathPushB root s), n.isFile = true →
      n.access ≠ .readFail)
    (hutf : ∀ s ∈ sources, ∀ n ∈ walk (pathPushB root s), n.isFile = true →
      ∀ c, n.access = .ok c → nodeKey root n.path ≠ none) :
    (checksum_directory sources root walk hashFn).isOkB = true ∧
    (∀ s ∈ sources, ∀ n ∈ walk (pathPushB root s), n.isFile = true →
      ∀ c, n.access = .ok c → ∀ k, nodeKey root n.path = some k →
        (checksum_directory sources root walk hashFn).hasKey k = true) ∧
    checksum_directory sources root
        (fun p => (walk p).filter (fun n => n.isFile && !(n.access == NodeAccess.openFail)))
        hashFn =
      checksum_directory sources root walk hashFn := by
  obtain ⟨m2, hm2, -, hins⟩ := scanSources_ok root walk hashFn sources []
    fun s hs n hn hf => ⟨hread s hs n hn hf, hutf s hs n hn hf⟩
  refine ⟨?_, ?_, ?_⟩
  · unfold checksum_directory
    rw [hm2]
    rfl
  · intro s hs n hn hf c hc k hk
    unfold checksum_directory
    rw [hm2]
    exact hins s hs n hn hf c hc k hk
  · unfold checksum_directory
    exact scanSources_filter root walk hashFn sources []

/-- C5 counterexample: a walk containing one regular file that opens but
fails to read makes `checksum_directory` panic instead of returning a
manifest, refuting the claim that the scan never fails. -/
theorem c5_counterexample :
    checksum_directory [['a']] [] (fun _ => [⟨[97], true, NodeAccess.readFail⟩])
      (fun _ => ([] : Str)) = .panicked .readPanic := rfl

/-- Closed instance of `c5_scan_skips_and_returns`: one source, one readable
file, one unreadable directory node. -/
theorem c5_scan_skips_and_returns_witness :
    (checksum_directory [['a']] []
      (fun _ => [⟨[100], false, NodeAccess.openFail⟩, ⟨[97], true, NodeAccess.ok [7]⟩])
      (fun _ => ['h'])).isOkB = true :=
  (c5_scan_skips_and_returns [['a']] []
    (fun _ => [⟨[100], false, NodeAccess.openFail⟩, ⟨[97], true, NodeAccess.ok [7]⟩])
    (fun _ => ['h'])
    (by
      intro s hs n hn hf
      rcases List.mem_cons.mp hn with rfl | hn2
      · simp at hf
      · rcases List.mem_cons.mp hn2 with rfl | hn3
        · decide
        · cases hn3)
    (by
      intro s hs n hn hf c hc
      rcases List.mem_cons.mp hn with rfl | hn2
      · simp at hf
      · rcases List.mem_cons.mp hn2 with rfl | hn3
        · decide
        · cases hn3)).1

/-- C7: for a file under the root whose full path is valid UTF-8 (the eager
`unwrap_or` argument decodes the full path even when stripping succeeds), the
key is the file's path made relative to the root and rejoined with forward
slashes; when the path does not lie under the root the stripping fails and
the full path is the key, and the scan still returns a manifest covering
every hashed file. -/
theorem c7_keys_relative_with_fallback (root rel p : Bytes) (sources : List Str)
    (walk : Bytes → List Node) (hashFn : Bytes → Str)
    (hroot : root ≠ [])
    (hvalid : validUtf8 (root ++ 47 :: rel) = true)
    (hfail : ((isAbsB root == isAbsB p) &&
      (pathComps root).isPrefixOf (pathComps p)) = false)
    (hread : ∀ s ∈ sources, ∀ n ∈ walk (pathPushB root s), n.isFile = true →
      n.access ≠ .readFail)
    (hutf : ∀ s ∈ sources, ∀ n ∈ walk (pathPushB root s), n.isFile = true →
      ∀ c, n.access = .ok c → nodeKey root n.path ≠ none) :
    nodeKey root (root ++ 47 :: rel) = decodeUtf8 (joinSlash (pathComps rel)) ∧
    nodeKey root p = decodeUtf8 p ∧
    (checksum_directory sources root walk hashFn).isOkB = true ∧
    (∀ s ∈ sources, ∀ n ∈ walk (pathPushB root s), n.isFile = true →
      ∀ c, n.access = .ok c → ∀ k, nodeKey root n.path = some k →
        (checksum_directory sources root walk hashFn).hasKey k = true) := by
  obtain ⟨m2, hm2, -, hins⟩ := scanSources_ok root walk hashFn sources []
    fun s hs n hn hf => ⟨hread s hs n hn hf, hutf s hs n hn hf⟩
  refine ⟨?_, stripRoot_fail root p hfail, ?_, ?_⟩
  · unfold nodeKey
    simp only [stripRoot_push root rel hroot]
    cases hd : decodeUtf8 (joinSlash (pathComps rel)) with
    | none => rfl
    | some s =>
      unfold validUtf8 at hvalid
      cases hfull : decodeUtf8 (root ++ 47 :: rel) with
      | none =>
        rw [hfull] at hvalid
        cases hvalid
      | some t => rfl
  · unfold checksum_directory
    rw [hm2]
    rfl
  · intro s hs n hn hf c hc k hk
    unfold checksum_directory
    rw [hm2]
    exact hins s hs n hn hf c hc k hk

/-- Closed instance of `c7_keys_relative_with_fallback`: root `r`, a file
`r/a` keyed by the relative path `a`, and an out-of-root absolute path `/x`
keyed by its full path. -/
theorem c7_keys_relative_with_fallback_witness :
    nodeKey [114] ([114] ++ 47 :: [97]) = decodeUtf8 (joinSlash (pathComps [97])) ∧
    nodeKey [114] [47, 120] = decodeUtf8 [47, 120] ∧
    (checksum_directory [['a']] [114]
      (fun _ => [⟨[114, 47, 97], true, NodeAccess.ok [7]⟩]) (fun _ => ['h'])).isOkB = true ∧
    (∀ s ∈ [['a']], ∀ n ∈ (fun _ : Bytes => [(⟨[114, 47, 97], true, NodeAccess.ok [7]⟩ : Node)])
        (pathPushB [114] s), n.isFile = true →
      ∀ c, n.access = NodeAccess.ok c → ∀ k, nodeKey [114] n.path = some k →
        (checksum_directory [['a']] [114]
          (fun _ => [⟨[114, 47, 97], true, NodeAccess.ok [7]⟩]) (fun _ => ['h'])).hasKey k =
          true) :=
  c7_keys_relative_with_fallback [114] [97] [47, 120] [['a']]
    (fun _ => [⟨[114, 47, 97], true, NodeAccess.ok [7]⟩]) (fun _ => ['h'])
    (by decide) (by decide) (by decide)
    (by
      intro s hs n hn hf
      rcases List.mem_cons.mp hn with rfl | hn2
      · decide
      · cases hn2)
    (by
      intro s hs n hn hf c hc
      rcases List.mem_cons.mp hn with rfl | hn2
      · decide
      · cases hn2)

/-- C10 (amended): when every hashed file's path (and its root-relative form)
is valid UTF-8 the `to_str().unwrap()` calls never panic, and if additionally
every opened file reads successfully the scan is total; for an input
containing a file whose name is not valid UTF-8 the scan panics instead of
skipping the file or returning an error. -/
theorem c10_utf8_unwraps (sources : List Str) (root : Bytes)
    (walk : Bytes → List Node) (hashFn : Bytes → Str) :
    ((∀ s ∈ sources, ∀ n ∈ walk (pathPushB root s), n.isFile = true →
        validUtf8 n.path = true ∧
        ∀ r, stripRoot root n.path = some r → validUtf8 r = true) →
      checksum_directory sources root walk hashFn ≠ .panicked .utf8Panic) ∧
    ((∀ s ∈ sources, ∀ n ∈ walk (pathPushB root s), n.isFile = true →
        n.access ≠ .readFail ∧ (validUtf8 n.path = true ∧
          ∀ r, stripRoot root n.path = some r → validUtf8 r = true)) →
      (checksum_directory sources root walk hashFn).isOkB = true) ∧
    checksum_directory [['s']] [] (fun _ => [⟨[255], true, NodeAccess.ok []⟩])
      (fun _ => ([] : Str)) = .panicked .utf8Panic := by
  refine ⟨?_, ?_, rfl⟩
  · intro h
    unfold checksum_directory
    exact scanSources_no_utf8_panic root walk hashFn sources []
      fun s hs n hn hf c _ =>
        nodeKey_ne_none_of_validUtf8 root n.path (h s hs n hn hf).1 (h s hs n hn hf).2
  · intro h
    obtain ⟨m2, hm2, -, -⟩ := scanSources_ok root walk hashFn sources []
      fun s hs n hn hf =>
        ⟨(h s hs n hn hf).1, fun c _ =>
          nodeKey_ne_none_of_validUtf8 root n.path (h s hs n hn hf).2.1
            (h s hs n hn hf).2.2⟩
    unfold checksum_directory
    rw [hm2]
    rfl

/-- C10 counterexample: a walk whose single file has a valid-UTF-8 name (so
the claim's precondition holds) but whose read fails makes the scan panic, so
the scan is not total under the UTF-8 precondition alone. -/
theorem c10_counterexample :
    validUtf8 [98] = true ∧
    stripRoot [] [98] = some [98] ∧
    checksum_directory [['b']] [] (fun _ => [⟨[98], true, NodeAccess.readFail⟩])
      (fun _ => ([] : Str)) = .panicked .readPanic := by
  exact ⟨rfl, rfl, rfl⟩

/-- Closed instance of `c10_utf8_unwraps`: a valid-UTF-8 readable file scans
to a manifest. -/
theorem c10_utf8_unwraps_witness :
    (checksum_directory [['b']] [] (fun _ => [⟨[98], true, NodeAccess.ok [7]⟩])
      (fun _ => ['h'])).isOkB = true :=
  (c10_utf8_unwraps [['b']] [] (fun _ => [⟨[98], true, NodeAccess.ok [7]⟩])
    (fun _ => ['h'])).2.1
    (by
      intro s hs n hn hf
      rcases List.mem_cons.mp hn with rfl | hn2
      · refine ⟨by decide, by decide, ?_⟩
        intro r hr
        have : r = [98] := by
          have hdec : stripRoot ([] : Bytes) [98] = some [98] := rfl
          rw [hdec] at hr
          exact (Option.some.inj hr).symm
        rw [this]
        decide
      · cases hn2)

end Backup
